import Mathlib

/-!
Verification of the dictionary subsystem (`jisyo.ts`) of denops-skkeleton.

The TypeScript source is shallowly embedded:
* JS strings are modelled as lists of Unicode code points (`List Char`);
* JS `Map` is modelled as an insertion-ordered association list with unique
  keys, `set`/`get`/`delete` translated field by field;
* `Array.prototype.sort` with a key comparator is modelled as insertion sort
  over the code-point lexicographic order (the source compares keys with
  `localeCompare`, modelled here as code-point comparison, which is the
  "lexicographic order" the specification describes);
* ambient effects (the kana table, `Date.now()`, file contents, file
  modification times, write success/failure, the remote socket) become
  explicit parameters.
-/

namespace Skk

abbrev Str := List Char

/-- Association list standing for a JS insertion-ordered `Map`. -/
abbrev AList (β : Type) := List (Str × β)

/-- Table of one okuri section: phonetic key to candidate list
(`Map<string, string[]>` in the source). -/
abbrev Table := AList (List Str)

/-- JS `map.get(k)` (as an `Option` instead of `undefined`). -/
def mapGet (k : Str) : AList β → Option β
  | [] => none
  | e :: es => if e.1 = k then some e.2 else mapGet k es

/-- JS `map.set(k, v)`: replace in place when the key is present,
append otherwise. -/
def mapSet (k : Str) (v : β) (m : AList β) : AList β :=
  if m.any (fun e => e.1 = k) then
    m.map (fun e => if e.1 = k then (k, v) else e)
  else m ++ [(k, v)]

/-- JS `map.delete(k)`. -/
def mapDelete (k : Str) (m : AList β) : AList β :=
  m.filter (fun e => ¬e.1 = k)

/-- JS `s.split(c)` for a one-character separator `c`. -/
def splitOnChar (c : Char) : Str → List Str
  | [] => [[]]
  | x :: xs =>
    if x = c then [] :: splitOnChar c xs
    else
      match splitOnChar c xs with
      | [] => [[x]]
      | y :: ys => (x :: y) :: ys

/-- JS `pieces.join(c)` for a one-character separator `c`. -/
def joinSep (c : Char) : List Str → Str
  | [] => []
  | [x] => x
  | x :: xs => x ++ c :: joinSep c xs

/-- The `";; okuri-ari entries."` marker line of the SKK text format. -/
def okuriAriMarker : Str := ";; okuri-ari entries.".data

/-- The `";; okuri-nasi entries."` marker line of the SKK text format. -/
def okuriNasiMarker : Str := ";; okuri-nasi entries.".data

/-- One entry line of `UserDictionary.readFile`'s parsing loop:
`pos = line.indexOf(" ")`; when a space exists the key is
`line.substring(0, pos)` and the candidates are
`line.slice(pos + 2, -1).split("/")` (`slice(pos+2, -1)` is "drop the last
character, then drop the first `pos + 2`"). Returns `none` when the line
has no space (the line is silently skipped by the loop). -/
def parseLine (line : Str) : Option (Str × List Str) :=
  if ' ' ∈ line then
    let key := line.takeWhile (fun a => ¬a = ' ')
    some (key, splitOnChar '/' (line.dropLast.drop (key.length + 2)))
  else none

/-- Section mode of the parsing loop: `-1` (before any marker), `0`
(okuri-ari), `1` (okuri-nasi) in the source. -/
inductive Mode
  | preamble
  | ari
  | nasi
deriving DecidableEq

/-- The line loop of `UserDictionary.readFile` (lines 354-368 of the
source): marker lines switch the mode, other lines are parsed into the
table selected by the mode, lines before the first marker and lines
without a space are skipped. -/
def decodeLines : List Str → Mode → Table → Table → Table × Table
  | [], _, a0, a1 => (a0, a1)
  | line :: rest, mode, a0, a1 =>
    if line = okuriAriMarker then decodeLines rest .ari a0 a1
    else if line = okuriNasiMarker then decodeLines rest .nasi a0 a1
    else
      match mode with
      | .preamble => decodeLines rest .preamble a0 a1
      | .ari =>
        match parseLine line with
        | some (k, v) => decodeLines rest .ari (mapSet k v a0) a1
        | none => decodeLines rest .ari a0 a1
      | .nasi =>
        match parseLine line with
        | some (k, v) => decodeLines rest .nasi a0 (mapSet k v a1)
        | none => decodeLines rest .nasi a0 a1

/-- The line parser of `UserDictionary.readFile`: split the text on
newlines and run the parsing loop with empty tables. -/
def decode (text : Str) : Table × Table :=
  decodeLines (splitOnChar '\n' text) .preamble [] []

/-- One serialized entry line of `UserDictionary.writeFile`:
``` `${e[0]} /${e[1].join("/")}/` ```. -/
def fmtEntry (e : Str × List Str) : Str :=
  e.1 ++ ' ' :: '/' :: (joinSep '/' e.2 ++ ['/'])

/-- `Array.from(map).sort((a, b) => a[0].localeCompare(b[0]))`:
entries sorted by key, ascending. -/
def sortTableAsc (t : Table) : Table :=
  List.insertionSort (fun a b => a.1 ≤ b.1) t

/-- `Array.from(map).sort((a, b) => b[0].localeCompare(a[0]))`:
entries sorted by key, descending. -/
def sortTableDesc (t : Table) : Table :=
  List.insertionSort (fun a b => b.1 ≤ a.1) t

/-- The serializer of `UserDictionary.writeFile` (lines 400-413 of the
source): okuri-ari marker, okuri-ari entries sorted descending by key,
okuri-nasi marker, okuri-nasi entries sorted ascending by key, a final
empty line, joined with newlines. -/
def encode (ari nasi : Table) : Str :=
  joinSep '\n'
    ([okuriAriMarker] ++ (sortTableDesc ari).map fmtEntry
      ++ [okuriNasiMarker] ++ (sortTableAsc nasi).map fmtEntry ++ [[]])

/-- `export type HenkanType = "okuriari" | "okurinasi"`. -/
inductive HenkanType
  | okuriari
  | okurinasi
deriving DecidableEq

/-- Completion data: list of `(key, candidates)` pairs
(`CompletionData` in the source). -/
abbrev CompletionData := List (Str × List Str)

/-- State of a `UserDictionary` instance. Fields `cachedPre` and
`cachedFeed` model the source's `#cachedPrefix` and `#cachedFeed`
(renamed here); `loadTime` models `#loadTime`; `path`/`rankPath` model
`#path`/`#rankPath`; ranks map candidate strings to numbers. -/
structure UserDict where
  okuriAri : Table := []
  okuriNasi : Table := []
  rank : AList Int := []
  path : Str := []
  rankPath : Str := []
  loadTime : Int := -1
  cachedPre : Str := []
  cachedFeed : Str := []
  cachedCandidates : CompletionData := []
deriving DecidableEq

/-- Table selected by a `HenkanType`
(`type === "okuriari" ? this.#okuriAri : this.#okuriNasi`). -/
def UserDict.target (st : UserDict) : HenkanType → Table
  | .okuriari => st.okuriAri
  | .okurinasi => st.okuriNasi

/-- Write back the table selected by a `HenkanType`. -/
def UserDict.setTarget (st : UserDict) : HenkanType → Table → UserDict
  | .okuriari, t => { st with okuriAri := t }
  | .okurinasi, t => { st with okuriNasi := t }

/-- `UserDictionary.getCandidate`: `target.get(word) ?? []`. -/
def userGetCandidate (st : UserDict) (t : HenkanType) (word : Str) : List Str :=
  (mapGet word (st.target t)).getD []

/-- A kana-table row: romanized key and its outputs
(one row of `getKanaTable()`; the kana table lives outside the
dictionary module and is passed in explicitly). -/
abbrev KanaTable := List (Str × List Str)

/-- The completion search computed by `UserDictionary.cacheCandidates`
when the cache misses: with a feed, for every kana-table row whose key
starts with the feed and which has more than one output, collect the
okuri-nasi entries whose key starts with `pre ++` the row's first
output; without a feed, collect the okuri-nasi entries whose key starts
with `pre`. Entries are pushed in table iteration order (no sort, unlike
`SKKDictionary.getCandidates`). -/
def computeCandidates (ktable : KanaTable) (nasi : Table) (pre feed : Str) :
    CompletionData :=
  if feed = [] then
    nasi.filter (fun e => pre.isPrefixOf e.1)
  else
    (ktable.filter (fun r => feed.isPrefixOf r.1 ∧ r.2.length > 1)).flatMap
      (fun r => nasi.filter (fun e => (pre ++ r.2.headD []).isPrefixOf e.1))

/-- `UserDictionary.cacheCandidates`: return unchanged on a cache hit
(same query as last time), otherwise recompute and store the query and
its result. -/
def cacheCandidates (ktable : KanaTable) (st : UserDict) (pre feed : Str) :
    UserDict :=
  if st.cachedPre = pre ∧ st.cachedFeed = feed then st
  else
    { st with
      cachedPre := pre
      cachedFeed := feed
      cachedCandidates := computeCandidates ktable st.okuriNasi pre feed }

/-- `UserDictionary.getCandidates`: run `cacheCandidates` and return the
cached result (paired with the updated state). -/
def userGetCandidates (ktable : KanaTable) (st : UserDict) (pre feed : Str) :
    UserDict × CompletionData :=
  let st' := cacheCandidates ktable st pre feed
  (st', st'.cachedCandidates)

/-- JS `set.add(c)` on a `Set` materialized as its insertion-ordered
element list. -/
def setAdd (acc : List Str) (c : Str) : List Str :=
  if c ∈ acc then acc else acc ++ [c]

/-- First-occurrence deduplication: the element list of a JS `Set` built
from a list. -/
def dedupFirst : List Str → List Str
  | [] => []
  | c :: cs => c :: dedupFirst (cs.filter (fun x => ¬x = c))
termination_by l => l.length
decreasing_by
  simp only [List.length_cons]
  exact Nat.lt_succ_of_le (List.filter_sublist _).length_le

/-- `UserDictionary.registerCandidate`: no-op for the empty candidate;
otherwise store `Array.from(new Set([candidate, ...old]))` for the key,
set the candidate's rank to the current time (`Date.now()`, passed in as
`now`), and clear the cached query's stored prefix. -/
def registerCandidate (now : Int) (st : UserDict) (t : HenkanType)
    (word cand : Str) : UserDict :=
  if cand = [] then st
  else
    let old := (mapGet word (st.target t)).getD []
    let st' := st.setTarget t (mapSet word ((cand :: old).foldl setAdd []) (st.target t))
    { st' with rank := mapSet cand now st'.rank, cachedPre := [] }

/-- `UserDictionary.purgeCandidate`: filter the candidate out of the
key's list; keep the filtered list if non-empty, delete the key if it
became empty. The cached completion query is left untouched. -/
def purgeCandidate (st : UserDict) (t : HenkanType) (word cand : Str) :
    UserDict :=
  let newCandidate := ((mapGet word (st.target t)).getD []).filter (fun c => ¬c = cand)
  if newCandidate.length > 0 then
    st.setTarget t (mapSet word newCandidate (st.target t))
  else
    st.setTarget t (mapDelete word (st.target t))

/-- Shape of a parsed JSON value, as far as the rank file check needs it:
`assertArray(rankData, isString)` only distinguishes "array of strings"
from everything else. -/
inductive JsonVal
  | jstr (s : Str)
  | jnum (n : Int)
  | jbool (b : Bool)
  | jnull
  | jarr (xs : List JsonVal)

/-- `assertArray(rankData, isString)` succeeds exactly on an array all of
whose elements are strings. -/
def isStringArray : JsonVal → Bool
  | .jarr xs => xs.all fun x => match x with | .jstr _ => true | _ => false
  | _ => false

/-- String elements of a JSON array (the identity on well-shaped rank
data). -/
def jsonStrings : JsonVal → List Str
  | .jarr xs => xs.filterMap fun x => match x with | .jstr s => some s | _ => none
  | _ => []

/-- Observable file-system environment of one `UserDictionary.load` call.
`statMtime`: result of `Deno.stat(path)` reduced to
`stat.mtime?.getTime() ?? -1` (`none` means `stat` threw);
`dictText`: contents read by `Deno.readTextFile(path)` (`none` means the
read threw); `rankJson`: parsed contents of the rank file (`none` means
the read or `JSON.parse` threw). -/
structure FileEnv where
  statMtime : Option Int := none
  dictText : Option Str := none
  rankJson : Option JsonVal := none

/-- `UserDictionary.readFile(path, rankPath)`, with the file system made
explicit. The tables are reset and refilled from the dictionary text;
then, only when a rank path is configured, the rank data is parsed
strictly — any shape other than an array of strings throws. Returns the
state as mutated up to the point of return or throw, and whether the
call threw. -/
def readFile (st : UserDict) (env : FileEnv) (rankPath : Str) :
    UserDict × Bool :=
  match env.dictText with
  | none => ({ st with okuriAri := [], okuriNasi := [] }, true)
  | some text =>
    let t := decode text
    let st := { st with okuriAri := t.1, okuriNasi := t.2 }
    if rankPath = [] then (st, false)
    else
      match env.rankJson with
      | none => (st, true)
      | some j =>
        if isStringArray j then
          ({ st with
             rank := ((jsonStrings j).enum.map
               (fun e => (e.2, (e.1 : Int)))).foldl (fun m e => mapSet e.1 e.2 m) [] },
           false)
        else (st, true)

/-- `UserDictionary.load({path, rankPath})`, with the file system made
explicit. Argument paths of `none` model omitted fields (`path ??
this.#path`). The body's `try`/`catch` swallows every error of
`Deno.stat` and of `readFile` (`catch { /* do nothing */ }`), so `load`
itself never reports one; the returned `Bool` is whether an error
escapes to the caller, and is `false` on every path. An unchanged
modification time returns early, before the cached query is cleared. -/
def load (st : UserDict) (pathArg rankPathArg : Option Str) (env : FileEnv) :
    UserDict × Bool :=
  let path := pathArg.getD st.path
  let rankPath := rankPathArg.getD st.rankPath
  let st := { st with path := path, rankPath := rankPath }
  if path = [] then (st, false)
  else
    match env.statMtime with
    | none => ({ st with cachedPre := [] }, false)
    | some time =>
      if time = st.loadTime then (st, false)
      else
        let st := { st with loadTime := time }
        let st := (readFile st env rankPath).1
        ({ st with cachedPre := [] }, false)

/-- Rank data serialized by `UserDictionary.writeFile`: rank entries
sorted ascending by rank value, keeping only the candidate strings. -/
def rankFileData (st : UserDict) : List Str :=
  (List.insertionSort (fun a b : Str × Int => a.2 ≤ b.2) st.rank).map Prod.fst

/-- Dictionary text serialized by `UserDictionary.writeFile`. -/
def dictFileData (st : UserDict) : Str :=
  encode st.okuriAri st.okuriNasi

/-- Write-failure environment of one save: whether the dictionary write
and the rank write succeed. -/
structure WriteEnv where
  dictWriteOk : Bool := true
  rankWriteOk : Bool := true
  statMtimeAfter : Option Int := none

/-- `UserDictionary.writeFile(path, rankPath)` reduced to its observable
error behaviour: a failed dictionary write throws (after logging); with a
configured rank path a failed rank write throws (after logging). Returns
whether the call threw to its caller. -/
def writeFile (env : WriteEnv) (rankPath : Str) : Bool :=
  if ¬env.dictWriteOk then true
  else if rankPath = [] then false
  else ¬env.rankWriteOk

/-- `UserDictionary.save()`: no-op without a configured path; otherwise
run `writeFile` and — because the surrounding `try`/`catch` returns on
error (logging only in debug mode) — swallow any write failure; on
success refresh `#loadTime` from `Deno.stat` (`?? -1`). The returned
`Bool` is whether an error escapes to `save`'s caller, and is `false` on
every path. -/
def save (st : UserDict) (env : WriteEnv) : UserDict × Bool :=
  if st.path = [] then (st, false)
  else if writeFile env st.rankPath then (st, false)
  else ({ st with loadTime := env.statMtimeAfter.getD (-1) }, false)

/-- One chunk of `SkkServer.getCandidate`'s response loop: a decoded
response starting with `'4'` contributes nothing, anything else is split
on `'/'` with `slice(1, -1)` (drop the first and the last field). -/
def parseResponseChunk (s : Str) : List Str :=
  if s.head? = some '4' then [] else ((splitOnChar '/' s).drop 1).dropLast

/-- The response loop of `SkkServer.getCandidate` over the successive
decoded chunks of the socket: accumulate each chunk's fields, stopping
after the first chunk that ends with a newline. -/
def skkServerCollect : List Str → List Str
  | [] => []
  | s :: rest =>
    parseResponseChunk s ++
      (if s.getLast? = some '\n' then [] else skkServerCollect rest)

/-- `SKKDictionary.getCandidate`: exact lookup in the table selected by
the type, empty when absent. -/
def skkGetCandidate (ari nasi : Table) (t : HenkanType) (word : Str) :
    List Str :=
  (mapGet word (match t with | .okuriari => ari | .okurinasi => nasi)).getD []

/-- A dictionary source reduced to its `getCandidate` behaviour. -/
abbrev DictFun := HenkanType → Str → List Str

/-- Digit-run collapsing loop: `inRun` records whether the previous
character was a decimal digit, so that a maximal digit run contributes a
single `'#'`. -/
def replaceDigitRunsGo : Bool → Str → Str
  | _, [] => []
  | inRun, c :: cs =>
    if '0' ≤ c ∧ c ≤ '9' then
      (if inRun then [] else ['#']) ++ replaceDigitRunsGo true cs
    else c :: replaceDigitRunsGo false cs

/-- `word.replaceAll(/[0-9]+/g, "#")`: collapse every maximal run of
decimal digits into a single `'#'`. -/
def replaceDigitRuns (w : Str) : Str := replaceDigitRunsGo false w

/-- `NumberConvertWrapper.getCandidate` around an inner source's
`getCandidate`: replace digit runs with `'#'` before delegating; if the
word had no digits return the delegate's result unchanged, otherwise map
`convertNumber` over it. `convertNumber` itself (the `#0`..`#9`
placeholder expansion) depends on the external `japanese_numeral`
library and is passed in as `conv`. -/
def numberWrapGetCandidate (conv : Str → Str → Str) (inner : DictFun) :
    DictFun := fun t word =>
  let realWord := replaceDigitRuns word
  let cand := inner t realWord
  if word = realWord then cand else cand.map (fun c => conv c word)

/-- The source list built by `Library`'s constructor: the
number-conversion-wrapped user dictionary first, then the configured
sources in construction order. -/
def libraryDicts (conv : Str → Str → Str) (user : UserDict)
    (others : List DictFun) : List DictFun :=
  numberWrapGetCandidate conv (userGetCandidate user) :: others

/-- `Library.getCandidate`: fold every source's candidates into one JS
`Set`, then materialize it (`Array.from(merged)`). -/
def libraryGetCandidate (dicts : List DictFun) (t : HenkanType) (word : Str) :
    List Str :=
  dicts.foldl (fun acc d => (d t word).foldl setAdd acc) []

/-! ### Association-list (JS `Map`) lemmas -/

theorem mapGet_replace_of_any (k : Str) (v : β) (m : AList β)
    (h : m.any (fun e => e.1 = k)) :
    mapGet k (m.map fun e => if e.1 = k then (k, v) else e) = some v := by
  induction m with
  | nil => simp at h
  | cons e es ih =>
    by_cases he : e.1 = k
    · simp [mapGet, he]
    · simp only [List.any_cons, Bool.or_eq_true, decide_eq_true_eq] at h
      rcases h with h | h

      · exact absurd h he
      · simpa [mapGet, he] using ih h

theorem mapGet_append_of_absent (k : Str) (m : AList β) (l : AList β)
    (h : ∀ e ∈ m, ¬e.1 = k) : mapGet k (m ++ l) = mapGet k l := by
  induction m with
  | nil => rfl
  | cons e es ih =>
    have he := h e (by simp)
    simpa [mapGet, he] using ih (fun e' he' => h e' (by simp [he']))

theorem mapGet_mapSet_self (k : Str) (v : β) (m : AList β) :
    mapGet k (mapSet k v m) = some v := by
  unfold mapSet
  split
  next h => exact mapGet_replace_of_any k v m h
  next h =>
    rw [mapGet_append_of_absent]
    · simp [mapGet]
    · intro e he
      simp only [List.any_eq_true, decide_eq_true_eq] at h
      exact fun hk => h ⟨e, he, hk⟩

theorem mapGet_replace_ne (k k' : Str) (v : β) (m : AList β) (h : ¬k' = k) :
    mapGet k' (m.map fun e => if e.1 = k then (k, v) else e) = mapGet k' m := by
  induction m with
  | nil => rfl
  | cons e es ih =>
    by_cases he : e.1 = k
    · have hke : ¬k = k' := fun hk => h hk.symm
      have hek : ¬e.1 = k' := he ▸ hke
      simp [mapGet, he, hke, hek, ih]
    · by_cases he' : e.1 = k' <;> simp [mapGet, he, he', h, ih]

theorem mapGet_append_single_ne (k k' : Str) (v : β) (m : AList β) (h : ¬k' = k) :
    mapGet k' (m ++ [(k, v)]) = mapGet k' m := by
  induction m with
  | nil =>
    have hke : ¬k = k' := fun hk => h hk.symm
    simp [mapGet, hke]
  | cons e es ih => by_cases he : e.1 = k' <;> simp [mapGet, he, ih]

theorem mapGet_mapSet_ne (k k' : Str) (v : β) (m : AList β) (h : ¬k' = k) :
    mapGet k' (mapSet k v m) = mapGet k' m := by
  unfold mapSet
  split
  · exact mapGet_replace_ne k k' v m h
  · exact mapGet_append_single_ne k k' v m h

theorem mapGet_mapDelete_self (k : Str) (m : AList β) :
    mapGet k (mapDelete k m) = none := by
  induction m with
  | nil => rfl
  | cons e es ih =>
    by_cases he : e.1 = k
    · simpa [mapDelete, he] using ih
    · simpa [mapDelete, mapGet, he] using ih

theorem mapGet_mapDelete_ne (k k' : Str) (m : AList β) (h : ¬k' = k) :
    mapGet k' (mapDelete k m) = mapGet k' m := by
  induction m with
  | nil => rfl
  | cons e es ih =>
    by_cases he : e.1 = k
    · have hek : ¬e.1 = k' := fun hk => h (hk.symm.trans he)
      have hke : ¬k = k' := fun hk => h hk.symm
      simpa [mapDelete, List.filter_cons, he, mapGet, hek, hke] using ih
    · by_cases he' : e.1 = k' <;>
        simpa [mapDelete, List.filter_cons, he, mapGet, he', h] using ih

theorem target_setTarget (st : UserDict) (t : HenkanType) (tbl : Table) :
    ((st.setTarget t tbl).target t) = tbl := by
  cases t <;> rfl

theorem target_setTarget_ne (st : UserDict) (t t' : HenkanType) (tbl : Table)
    (h : ¬t' = t) : ((st.setTarget t tbl).target t') = st.target t' := by
  cases t <;> cases t' <;> first | rfl | exact absurd rfl h

/-! ### C5: purgeCandidate -/

/-- C5: `purgeCandidate(type, key, candidate)` removes exactly the
occurrences of `candidate` from the entry for `key` in the table selected
by `type` (keeping the surviving candidates in their original relative
order, as a filter); the key disappears when its list becomes empty; every
other key of that table and the whole other table are untouched. -/
theorem purgeCandidate_spec (st : UserDict) (t : HenkanType) (word cand : Str) :
    (mapGet word ((purgeCandidate st t word cand).target t)
      = (if (((mapGet word (st.target t)).getD []).filter (fun c => ¬c = cand)) = []
         then none
         else some (((mapGet word (st.target t)).getD []).filter (fun c => ¬c = cand))))
    ∧ (∀ k, ¬k = word →
        mapGet k ((purgeCandidate st t word cand).target t) = mapGet k (st.target t))
    ∧ (∀ t', ¬t' = t → (purgeCandidate st t word cand).target t' = st.target t') := by
  dsimp only [purgeCandidate]
  by_cases hnc : (((mapGet word (st.target t)).getD []).filter (fun c => ¬c = cand)) = []
  · rw [if_neg (by rw [hnc]; simp), if_pos hnc]
    refine ⟨?_, ?_, ?_⟩
    · rw [target_setTarget]
      exact mapGet_mapDelete_self word (st.target t)
    · intro k hk
      rw [target_setTarget]
      exact mapGet_mapDelete_ne word k (st.target t) hk
    · intro t' ht'
      exact target_setTarget_ne st t t' _ ht'
  · have hlen : (((mapGet word (st.target t)).getD []).filter (fun c => ¬c = cand)).length > 0 :=
      List.length_pos.mpr hnc
    rw [if_pos hlen, if_neg hnc]
    refine ⟨?_, ?_, ?_⟩
    · rw [target_setTarget]
      exact mapGet_mapSet_self word _ (st.target t)
    · intro k hk
      rw [target_setTarget]
      exact mapGet_mapSet_ne word k _ (st.target t) hk
    · intro t' ht'
      exact target_setTarget_ne st t t' _ ht'

/-! ### C10: purgeCandidate leaves the rank map alone -/

theorem rank_setTarget (st : UserDict) (t : HenkanType) (tbl : Table) :
    ((st.setTarget t tbl).rank) = st.rank := by
  cases t <;> rfl

/-- C10: `purgeCandidate` never modifies the rank map: the rank table is
exactly what it was before, each candidate's rank entry survives, and the
rank data serialized by the next `save()` is unchanged. -/
theorem purgeCandidate_rank_frame (st : UserDict) (t : HenkanType) (word cand : Str) :
    ((purgeCandidate st t word cand).rank = st.rank)
    ∧ (∀ c, mapGet c (purgeCandidate st t word cand).rank = mapGet c st.rank)
    ∧ rankFileData (purgeCandidate st t word cand) = rankFileData st := by
  have h : (purgeCandidate st t word cand).rank = st.rank := by
    dsimp only [purgeCandidate]
    split <;> exact rank_setTarget st t _
  refine ⟨h, fun c => by rw [h], ?_⟩
  unfold rankFileData
  rw [h]

/-! ### JS `Set` lemmas: folding `setAdd` is first-occurrence dedup -/

theorem foldl_setAdd_eq_dedupFirst_filter (l : List Str) :
    ∀ acc, l.foldl setAdd acc = acc ++ dedupFirst (l.filter (fun x => ¬x ∈ acc)) := by
  induction l with
  | nil => intro acc; simp [dedupFirst]
  | cons c cs ih =>
    intro acc
    by_cases hc : c ∈ acc
    · rw [List.foldl_cons]
      rw [show setAdd acc c = acc from if_pos hc]
      rw [ih acc, List.filter_cons, if_neg (by simpa using hc)]
    · rw [List.foldl_cons]
      rw [show setAdd acc c = acc ++ [c] from if_neg hc]
      rw [ih (acc ++ [c]), List.filter_cons, if_pos (by simpa using hc)]
      rw [dedupFirst, List.filter_filter, List.append_assoc, List.cons_append,
        List.nil_append]
      congr 3
      apply List.filter_congr
      intro x _
      by_cases hxc : x = c <;> by_cases hxa : x ∈ acc <;>
        simp [hxc, hxa, List.mem_append]

theorem foldl_setAdd_nil (l : List Str) :
    l.foldl setAdd [] = dedupFirst l := by
  rw [foldl_setAdd_eq_dedupFirst_filter l []]
  simp

theorem mem_dedupFirst : ∀ (l : List Str) (x : Str), x ∈ dedupFirst l ↔ x ∈ l
  | [] , _ => by simp [dedupFirst]
  | c :: cs, x => by
    rw [dedupFirst]
    by_cases hxc : x = c
    · simp [hxc]
    · have ih := mem_dedupFirst (cs.filter fun y => ¬y = c) x
      simp only [List.mem_cons, hxc, false_or, ih, List.mem_filter,
        decide_eq_true_eq]
      constructor
      · exact fun h => h.1
      · exact fun h => ⟨h, by simpa using hxc⟩
termination_by l => l.length
decreasing_by
  simp only [List.length_cons]
  exact Nat.lt_succ_of_le (List.filter_sublist _).length_le

theorem dedupFirst_nodup : ∀ l : List Str, (dedupFirst l).Nodup
  | [] => by simp [dedupFirst]
  | c :: cs => by
    rw [dedupFirst, List.nodup_cons]
    constructor
    · rw [mem_dedupFirst]
      simp
    · exact dedupFirst_nodup (cs.filter fun y => ¬y = c)
termination_by l => l.length
decreasing_by
  simp only [List.length_cons]
  exact Nat.lt_succ_of_le (List.filter_sublist _).length_le

/-! ### C3: registerCandidate -/

/-- C3 counterexample: on the reachable state whose entry for `"k"` is
`["a", "a"]` (loadable from the dictionary line `k /a/a/`), registering
`"b"` yields `["b", "a"]` — the JS `Set` also collapses the pre-existing
duplicate — not the `["b", "a", "a"]` the claim's formula
`[candidate] ++ (old with candidate removed)` prescribes. -/
theorem registerCandidate_claim_counterexample :
    (mapGet "k".data (registerCandidate 7
        { okuriNasi := [("k".data, ["a".data, "a".data])] }
        .okurinasi "k".data "b".data).okuriNasi
      = some ["b".data, "a".data])
    ∧ ¬(mapGet "k".data (registerCandidate 7
        { okuriNasi := [("k".data, ["a".data, "a".data])] }
        .okurinasi "k".data "b".data).okuriNasi
      = some ("b".data :: (["a".data, "a".data].filter (fun x => ¬x = "b".data)))) := by
  exact ⟨rfl, by decide⟩

/-- C3 (amended): `registerCandidate(type, key, candidate)` is a no-op for
the empty candidate; otherwise the entry for `key` becomes the
first-occurrence deduplication of `[candidate] ++ oldList` (the new
candidate moves to the front and every duplicate occurrence collapses,
including duplicates already inside the old list), other keys and the
other table are untouched, and the rank entry for `candidate` is set to
the current logical time. -/
theorem registerCandidate_spec (st : UserDict) (t : HenkanType)
    (word cand : Str) (now : Int) (h : ¬cand = []) :
    (registerCandidate now st t word [] = st)
    ∧ (mapGet word ((registerCandidate now st t word cand).target t)
        = some (dedupFirst (cand :: (mapGet word (st.target t)).getD [])))
    ∧ (∀ k, ¬k = word →
        mapGet k ((registerCandidate now st t word cand).target t)
          = mapGet k (st.target t))
    ∧ (∀ t', ¬t' = t →
        (registerCandidate now st t word cand).target t' = st.target t')
    ∧ ((registerCandidate now st t word cand).rank = mapSet cand now st.rank) := by
  refine ⟨by rw [registerCandidate, if_pos rfl], ?_, ?_, ?_, ?_⟩ <;>
    rw [registerCandidate, if_neg h]
  · cases t <;>
      simp only [UserDict.target, UserDict.setTarget] <;>
      rw [foldl_setAdd_nil, mapGet_mapSet_self]
  · intro k hk
    cases t <;>
      simp only [UserDict.target, UserDict.setTarget] <;>
      exact mapGet_mapSet_ne word k _ _ hk
  · intro t' ht'
    cases t <;> cases t' <;> first | rfl | exact absurd rfl ht'
  · cases t <;> rfl

/-- Witness for `registerCandidate_spec` at a concrete input. -/
theorem registerCandidate_spec_witness :
    (registerCandidate 3 { } HenkanType.okurinasi "test".data [] = { })
    ∧ (mapGet "test".data ((registerCandidate 3 { } HenkanType.okurinasi
        "test".data "a".data).target .okurinasi)
        = some (dedupFirst ("a".data
            :: (mapGet "test".data (UserDict.target { } .okurinasi)).getD []))) := by
  have h := registerCandidate_spec { } HenkanType.okurinasi "test".data "a".data 3
    (by simp [String.data])
  exact ⟨h.1, h.2.1⟩

/-! ### C2: the completion write cache across mutations -/

/-- C2 counterexample: `purgeCandidate` does not invalidate the completion
cache. Query `("ab", "")` on a dictionary whose `"ab"` entry is
`["x", "y"]`, purge `"x"`, and query `("ab", "")` again: the cached
pre-mutation result `[("ab", ["x", "y"])]` is returned even though the
computation over the post-mutation tables yields `[("ab", ["y"])]`. -/
theorem purgeCandidate_stale_cache_counterexample :
    ((userGetCandidates []
        (purgeCandidate
          (userGetCandidates [] { okuriNasi := [("ab".data, ["x".data, "y".data])] }
            "ab".data []).1
          .okurinasi "ab".data "x".data)
        "ab".data []).2
      = [("ab".data, ["x".data, "y".data])])
    ∧ (computeCandidates []
        (purgeCandidate
          (userGetCandidates [] { okuriNasi := [("ab".data, ["x".data, "y".data])] }
            "ab".data []).1
          .okurinasi "ab".data "x".data).okuriNasi
        "ab".data []
      = [("ab".data, ["y".data])])
    ∧ ¬((userGetCandidates []
        (purgeCandidate
          (userGetCandidates [] { okuriNasi := [("ab".data, ["x".data, "y".data])] }
            "ab".data []).1
          .okurinasi "ab".data "x".data)
        "ab".data []).2
      = computeCandidates []
        (purgeCandidate
          (userGetCandidates [] { okuriNasi := [("ab".data, ["x".data, "y".data])] }
            "ab".data []).1
          .okurinasi "ab".data "x".data).okuriNasi
        "ab".data []) := by
  refine ⟨rfl, rfl, ?_⟩
  decide

/-- C2 (amended): `registerCandidate` with a non-empty candidate does
invalidate the write cache (it clears the stored query's `#cachedPrefix`),
so that a following `getCandidates` query with a non-empty prefix is
computed from the post-mutation tables — but `purgeCandidate` does not
invalidate the cache, and a repeated query can return stale pre-purge
results (see the counterexample). -/
theorem register_then_getCandidates_fresh (ktable : KanaTable) (st : UserDict)
    (t : HenkanType) (word cand pre feed : Str) (now : Int)
    (hc : ¬cand = []) (hp : ¬pre = []) :
    (userGetCandidates ktable (registerCandidate now st t word cand) pre feed).2
      = computeCandidates ktable
          (registerCandidate now st t word cand).okuriNasi pre feed := by
  have hcp : (registerCandidate now st t word cand).cachedPre = [] := by
    rw [registerCandidate, if_neg hc]
  unfold userGetCandidates cacheCandidates
  rw [if_neg (by rw [hcp]; exact fun hand => hp hand.1.symm)]

/-- Witness for `register_then_getCandidates_fresh` at a concrete input. -/
theorem register_then_getCandidates_fresh_witness :
    (userGetCandidates [] (registerCandidate 9 { } .okurinasi "ab".data "x".data)
        "ab".data []).2
      = computeCandidates []
          (registerCandidate 9 { } .okurinasi "ab".data "x".data).okuriNasi
          "ab".data [] :=
  register_then_getCandidates_fresh [] { } .okurinasi "ab".data "x".data
    "ab".data [] 9 (by decide) (by decide)

/-! ### C6: strict rank parse, swallowed by load -/

/-- C6 counterexample: with a configured rank path and rank contents that
parse to the JSON number `3` (not an array of strings), `readFile` does
throw, but `load()`'s catch-all swallows the error: `load` reports no
error to its caller. -/
theorem load_swallows_rank_error_counterexample :
    ((readFile { }
        { statMtime := some 5, dictText := some [], rankJson := some (.jnum 3) }
        "r".data).2 = true)
    ∧ ((load { } (some "p".data) (some "r".data)
        { statMtime := some 5, dictText := some [], rankJson := some (.jnum 3) }).2
      = false) :=
  ⟨rfl, rfl⟩

/-- C6 (amended): with a configured rank path, `readFile` is strict about
the rank file — it throws exactly when the parsed rank contents are not a
JSON array of strings — but `load()` wraps `readFile` in a catch-all
(`catch { /* do nothing */ }`), so the format error is not surfaced to
`load`'s caller: `load` returns without error, with the dictionary tables
already replaced by the decoded dictionary text, the load time already
advanced, the cached query cleared, and the rank map left unchanged. -/
theorem load_rank_error_spec (st : UserDict) (path rankPath text : Str)
    (time : Int) (j : JsonVal)
    (hpath : ¬path = []) (hrank : ¬rankPath = [])
    (htime : ¬time = (UserDict.loadTime { st with path := path, rankPath := rankPath }))
    (hj : isStringArray j = false) :
    ((readFile st { statMtime := some time, dictText := some text, rankJson := some j }
        rankPath).2 = true)
    ∧ ((load st (some path) (some rankPath)
        { statMtime := some time, dictText := some text, rankJson := some j }).2 = false)
    ∧ ((load st (some path) (some rankPath)
        { statMtime := some time, dictText := some text, rankJson := some j }).1
      = { st with
          path := path, rankPath := rankPath, loadTime := time,
          okuriAri := (decode text).1, okuriNasi := (decode text).2,
          cachedPre := [] }) := by
  refine ⟨?_, ?_, ?_⟩
  · rw [readFile]
    simp only [if_neg hrank, hj, Bool.false_eq_true, reduceIte]
  · rw [load]
    simp only [Option.getD_some, if_neg hpath, if_neg htime]
  · rw [load]
    simp only [Option.getD_some, if_neg hpath, if_neg htime]
    rw [readFile]
    simp only [if_neg hrank, hj, Bool.false_eq_true, reduceIte]

/-- Witness for `load_rank_error_spec` at a concrete input. -/
theorem load_rank_error_spec_witness :
    ((readFile { }
        { statMtime := some 2, dictText := some [], rankJson := some (.jbool true) }
        "r".data).2 = true)
    ∧ ((load { } (some "p".data) (some "r".data)
        { statMtime := some 2, dictText := some [], rankJson := some (.jbool true) }).2
      = false)
    ∧ ((load { } (some "p".data) (some "r".data)
        { statMtime := some 2, dictText := some [], rankJson := some (.jbool true) }).1
      = { path := "p".data, rankPath := "r".data, loadTime := 2,
          okuriAri := (decode []).1, okuriNasi := (decode []).2,
          cachedPre := [] }) :=
  load_rank_error_spec { } "p".data "r".data [] 2 (.jbool true)
    (by decide) (by decide) (by decide) rfl

/-! ### C7: save swallows write failures -/

/-- C7 counterexample: when the dictionary write fails, `writeFile` throws,
but `save()` catches the error and returns normally: no error escapes to
`save`'s caller and the state (in particular `#loadTime`) is unchanged. -/
theorem save_swallows_write_error_counterexample :
    (writeFile { dictWriteOk := false } [] = true)
    ∧ ((save { path := "p".data } { dictWriteOk := false }).2 = false)
    ∧ ((save { path := "p".data } { dictWriteOk := false }).1
        = { path := "p".data }) :=
  ⟨rfl, rfl, rfl⟩

/-- C7 (amended): `writeFile` does propagate write failures (for the
dictionary file, and for the rank file when a rank path is configured),
but `save()` catches them and returns normally — logging only in debug
mode — so the failure is never reported to `save`'s caller; only on a
successful write is the recorded modification time refreshed. -/
theorem save_spec (st : UserDict) (env : WriteEnv) (h : ¬st.path = []) :
    ((save st env).2 = false)
    ∧ (writeFile env st.rankPath = true → (save st env).1 = st)
    ∧ (writeFile env st.rankPath = false →
        (save st env).1 = { st with loadTime := env.statMtimeAfter.getD (-1) }) := by
  rw [save, if_neg h]
  rcases hw : writeFile env st.rankPath <;>
    simp [hw]

/-- Witness for `save_spec` at a concrete input. -/
theorem save_spec_witness :
    ((save { path := "p".data } { dictWriteOk := true }).2 = false)
    ∧ (writeFile { dictWriteOk := true } (UserDict.rankPath { path := "p".data }) = true →
        (save { path := "p".data } { dictWriteOk := true }).1 = { path := "p".data }) :=
  ⟨(save_spec { path := "p".data } { dictWriteOk := true } (by decide)).1,
   (save_spec { path := "p".data } { dictWriteOk := true } (by decide)).2.1⟩

/-! ### C9: remote protocol response parsing -/

/-- C9: for a decoded response line received in one chunk, a first
character `'4'` yields the empty result; otherwise the line is split on
`'/'` and the first and last fields are discarded, the interior fields
being the candidates; in particular `"1/AI/人工知能/\n"` yields
`["AI", "人工知能"]` and a `'4'`-prefixed response yields `[]`. -/
theorem skkServer_response_spec (line : Str) :
    (line.head? = some '4' → skkServerCollect [line] = [])
    ∧ (¬line.head? = some '4' →
        skkServerCollect [line] = ((splitOnChar '/' line).drop 1).dropLast)
    ∧ (∀ firstF lastF mid, splitOnChar '/' line = firstF :: mid ++ [lastF] →
        ((splitOnChar '/' line).drop 1).dropLast = mid)
    ∧ (skkServerCollect ["1/AI/人工知能/\n".data] = ["AI".data, "人工知能".data])
    ∧ (skkServerCollect ["4ai \n".data] = []) := by
  refine ⟨?_, ?_, ?_, rfl, rfl⟩
  · intro h4
    simp [skkServerCollect, parseResponseChunk, h4]
  · intro h4
    simp [skkServerCollect, parseResponseChunk, h4]
  · intro firstF lastF mid hsplit
    rw [hsplit]
    simp

/-! ### C8: the Library merge -/

/-- Position of the first occurrence of `a` (length of the list when
absent). -/
def idxOf (a : Str) : List Str → Nat
  | [] => 0
  | x :: xs => if x = a then 0 else idxOf a xs + 1

theorem idxOf_cons_self (a : Str) (l : List Str) : idxOf a (a :: l) = 0 := by
  simp [idxOf]

theorem idxOf_cons_ne (a x : Str) (l : List Str) (h : ¬x = a) :
    idxOf a (x :: l) = idxOf a l + 1 := by
  simp [idxOf, h]

theorem idxOf_filter_lt (p : Str → Bool) :
    ∀ (cs : List Str) (a b : Str), a ∈ cs.filter p → b ∈ cs.filter p →
      idxOf a (cs.filter p) < idxOf b (cs.filter p) →
      idxOf a cs < idxOf b cs := by
  intro cs
  induction cs with
  | nil => intro a b ha _ _; simp at ha
  | cons x xs ih =>
    intro a b ha hb hlt
    by_cases hpx : p x = true
    · rw [List.filter_cons, if_pos hpx] at ha hb hlt
      by_cases hax : a = x
      · subst hax
        by_cases hbx : b = a
        · subst hbx
          rw [idxOf_cons_self] at hlt
          exact absurd hlt (Nat.not_lt_zero _)
        · rw [idxOf_cons_self, idxOf_cons_ne b a xs (fun h => hbx h.symm)]
          exact Nat.succ_pos _
      · by_cases hbx : b = x
        · subst hbx
          rw [idxOf_cons_self] at hlt
          exact absurd hlt (Nat.not_lt_zero _)
        · rw [idxOf_cons_ne a x _ (fun h => hax h.symm),
            idxOf_cons_ne b x _ (fun h => hbx h.symm)] at hlt
          have ha' : a ∈ xs.filter p := by
            rcases List.mem_cons.mp ha with h | h
            · exact absurd h hax
            · exact h
          have hb' : b ∈ xs.filter p := by
            rcases List.mem_cons.mp hb with h | h
            · exact absurd h hbx
            · exact h
          rw [idxOf_cons_ne a x _ (fun h => hax h.symm),
            idxOf_cons_ne b x _ (fun h => hbx h.symm)]
          exact Nat.succ_lt_succ (ih a b ha' hb' (Nat.succ_lt_succ_iff.mp hlt))
    · rw [List.filter_cons, if_neg hpx] at ha hb hlt
      have hax : ¬a = x := fun h =>
        hpx (by rw [← h]; exact (List.mem_filter.mp ha).2)
      have hbx : ¬b = x := fun h =>
        hpx (by rw [← h]; exact (List.mem_filter.mp hb).2)
      rw [idxOf_cons_ne a x _ (fun h => hax h.symm),
        idxOf_cons_ne b x _ (fun h => hbx h.symm)]
      exact Nat.succ_lt_succ (ih a b ha hb hlt)

theorem dedupFirst_pairwise_idxOf : ∀ l : List Str,
    (dedupFirst l).Pairwise (fun a b => idxOf a l < idxOf b l)
  | [] => by simp [dedupFirst]
  | c :: cs => by
    rw [dedupFirst, List.pairwise_cons]
    constructor
    · intro b hb
      have hbmem : b ∈ cs.filter (fun y => ¬y = c) := (mem_dedupFirst _ b).mp hb
      have hbc : ¬b = c := by simpa using (List.mem_filter.mp hbmem).2
      rw [idxOf_cons_self, idxOf_cons_ne b c cs (fun h => hbc h.symm)]
      exact Nat.succ_pos _
    · have ih := dedupFirst_pairwise_idxOf (cs.filter fun y => ¬y = c)
      refine ih.imp_of_mem ?_
      intro a b ha hb hlt
      have ha' := (mem_dedupFirst _ a).mp ha
      have hb' := (mem_dedupFirst _ b).mp hb
      have hac : ¬a = c := by simpa using (List.mem_filter.mp ha').2
      have hbc : ¬b = c := by simpa using (List.mem_filter.mp hb').2
      rw [idxOf_cons_ne a c cs (fun h => hac h.symm),
        idxOf_cons_ne b c cs (fun h => hbc h.symm)]
      exact Nat.succ_lt_succ (idxOf_filter_lt _ cs a b ha' hb' hlt)
termination_by l => l.length
decreasing_by
  simp only [List.length_cons]
  exact Nat.lt_succ_of_le (List.filter_sublist _).length_le

theorem foldl_setAdd_flatten (ls : List (List Str)) :
    ∀ acc, ls.foldl (fun acc l => l.foldl setAdd acc) acc
      = ls.flatten.foldl setAdd acc := by
  induction ls with
  | nil => intro acc; rfl
  | cons l ls ih =>
    intro acc
    rw [List.foldl_cons, ih, List.flatten_cons, List.foldl_append]

/-- C8: `Library.getCandidate` folds the wrapped user dictionary's
candidates first and then each configured source's, in construction
order, into one insertion-ordered set: the result is the first-occurrence
deduplication of the concatenated source results — duplicate-free, with
exactly the concatenation's elements, ordered by first occurrence — and
on the spec's example (a global source mapping てすと to
[テスト, test], after registering "test") the merged result is
[test, テスト]. -/
theorem library_getCandidate_spec :
    (∀ (dicts : List DictFun) (t : HenkanType) (w : Str),
        libraryGetCandidate dicts t w
          = dedupFirst ((dicts.map fun d => d t w).flatten)
        ∧ (libraryGetCandidate dicts t w).Nodup
        ∧ (∀ c, c ∈ libraryGetCandidate dicts t w
            ↔ c ∈ (dicts.map fun d => d t w).flatten)
        ∧ (libraryGetCandidate dicts t w).Pairwise
            (fun a b => idxOf a ((dicts.map fun d => d t w).flatten)
              < idxOf b ((dicts.map fun d => d t w).flatten)))
    ∧ (∀ conv,
        libraryGetCandidate
          (libraryDicts conv
            (registerCandidate 0 { } .okurinasi "てすと".data "test".data)
            [numberWrapGetCandidate conv
              (skkGetCandidate [] [("てすと".data, ["テスト".data, "test".data])])])
          .okurinasi "てすと".data
        = ["test".data, "テスト".data]) := by
  constructor
  · intro dicts t w
    have he : libraryGetCandidate dicts t w
        = dedupFirst ((dicts.map fun d => d t w).flatten) := by
      have h1 : dicts.foldl (fun acc d => (d t w).foldl setAdd acc) []
          = (dicts.map fun d => d t w).foldl (fun acc l => l.foldl setAdd acc) [] := by
        rw [List.foldl_map]
      rw [libraryGetCandidate, h1, foldl_setAdd_flatten, foldl_setAdd_nil]
    refine ⟨he, ?_, ?_, ?_⟩
    · rw [he]; exact dedupFirst_nodup _
    · intro c; rw [he]; exact mem_dedupFirst _ c
    · rw [he]; exact dedupFirst_pairwise_idxOf _
  · intro conv
    rfl

/-! ### Split/join lemmas for the Codec round trip -/

theorem splitOnChar_ne_nil (c : Char) (s : Str) : ¬splitOnChar c s = [] := by
  induction s with
  | nil => simp [splitOnChar]
  | cons x xs ih =>
    rw [splitOnChar]
    by_cases hx : x = c
    · simp [hx]
    · rw [if_neg hx]
      rcases h : splitOnChar c xs with _ | ⟨y, ys⟩
      · simp
      · simp

theorem not_mem_of_mem_splitOnChar (c : Char) :
    ∀ (s : Str) (l : Str), l ∈ splitOnChar c s → c ∉ l := by
  intro s
  induction s with
  | nil =>
    intro l hl
    simp [splitOnChar] at hl
    simp [hl]
  | cons x xs ih =>
    intro l hl
    rw [splitOnChar] at hl
    by_cases hx : x = c
    · rw [if_pos hx] at hl
      rcases List.mem_cons.mp hl with h | h
      · simp [h]
      · exact ih l h
    · rw [if_neg hx] at hl
      rcases hs : splitOnChar c xs with _ | ⟨y, ys⟩
      · exact absurd hs (splitOnChar_ne_nil c xs)
      · rw [hs] at hl
        rcases List.mem_cons.mp hl with h | h
        · subst h
          intro hc
          rcases List.mem_cons.mp hc with h | h
          · exact hx h.symm
          · exact ih y (by rw [hs]; simp) h
        · exact ih l (by rw [hs]; simp [h])

theorem mem_of_mem_mem_splitOnChar (c a : Char) :
    ∀ (s : Str) (l : Str), l ∈ splitOnChar c s → a ∈ l → a ∈ s := by
  intro s
  induction s with
  | nil =>
    intro l hl ha
    simp [splitOnChar] at hl
    subst hl
    simp at ha
  | cons x xs ih =>
    intro l hl ha
    rw [splitOnChar] at hl
    by_cases hx : x = c
    · rw [if_pos hx] at hl
      rcases List.mem_cons.mp hl with h | h
      · subst h; simp at ha
      · exact List.mem_cons_of_mem x (ih l h ha)
    · rw [if_neg hx] at hl
      rcases hs : splitOnChar c xs with _ | ⟨y, ys⟩
      · exact absurd hs (splitOnChar_ne_nil c xs)
      · rw [hs] at hl
        rcases List.mem_cons.mp hl with h | h
        · subst h
          rcases List.mem_cons.mp ha with h | h
          · simp [h]
          · exact List.mem_cons_of_mem x (ih y (by rw [hs]; simp) h)
        · exact List.mem_cons_of_mem x (ih l (by rw [hs]; simp [h]) ha)

theorem splitOnChar_of_not_mem (c : Char) (x : Str) (h : c ∉ x) :
    splitOnChar c x = [x] := by
  induction x with
  | nil => rfl
  | cons a as ih =>
    have hac : ¬a = c := fun hc => h (by simp [hc])
    rw [splitOnChar, if_neg hac, ih (fun hc => h (List.mem_cons_of_mem a hc))]

theorem splitOnChar_append_cons (c : Char) (x t : Str) (h : c ∉ x) :
    splitOnChar c (x ++ c :: t) = x :: splitOnChar c t := by
  induction x with
  | nil => simp [splitOnChar]
  | cons a as ih =>
    have hac : ¬a = c := fun hc => h (by simp [hc])
    rw [List.cons_append, splitOnChar, if_neg hac,
      ih (fun hc => h (List.mem_cons_of_mem a hc))]

theorem joinSep_cons_cons (c : Char) (x y : Str) (ys : List Str) :
    joinSep c (x :: y :: ys) = x ++ c :: joinSep c (y :: ys) := rfl

theorem splitOnChar_joinSep (c : Char) :
    ∀ (ps : List Str), ¬ps = [] → (∀ p ∈ ps, c ∉ p) →
      splitOnChar c (joinSep c ps) = ps := by
  intro ps
  induction ps with
  | nil => intro h; exact absurd rfl h
  | cons x xs ih =>
    intro _ hmem
    rcases xs with _ | ⟨y, ys⟩
    · exact splitOnChar_of_not_mem c x (hmem x (by simp))
    · rw [joinSep_cons_cons, splitOnChar_append_cons c x _ (hmem x (by simp)),
        ih (by simp) (fun p hp => hmem p (List.mem_cons_of_mem x hp))]

theorem mem_joinSep (c a : Char) :
    ∀ (ps : List Str), a ∈ joinSep c ps → a = c ∨ ∃ p ∈ ps, a ∈ p := by
  intro ps
  induction ps with
  | nil => intro h; simp [joinSep] at h
  | cons x xs ih =>
    intro h
    rcases xs with _ | ⟨y, ys⟩
    · exact Or.inr ⟨x, by simp, h⟩
    · rw [joinSep_cons_cons] at h
      rcases List.mem_append.mp h with h | h
      · exact Or.inr ⟨x, by simp, h⟩
      · rcases List.mem_cons.mp h with h | h
        · exact Or.inl h
        · rcases ih h with h | ⟨p, hp, hap⟩
          · exact Or.inl h
          · exact Or.inr ⟨p, List.mem_cons_of_mem x hp, hap⟩

theorem takeWhile_append_of_all (p : Char → Bool) (k r : Str) (b : Char)
    (hk : ∀ a ∈ k, p a = true) (hb : ¬p b = true) :
    (k ++ b :: r).takeWhile p = k := by
  induction k with
  | nil => simp [List.takeWhile_cons, hb]
  | cons a as ih =>
    rw [List.cons_append, List.takeWhile_cons, if_pos (hk a (by simp)),
      ih (fun a' ha' => hk a' (List.mem_cons_of_mem a ha'))]

theorem mem_of_mem_takeWhile (p : Char → Bool) :
    ∀ (l : Str) (a : Char), a ∈ l.takeWhile p → a ∈ l := by
  intro l
  induction l with
  | nil => intro a ha; simp at ha
  | cons x xs ih =>
    intro a ha
    rw [List.takeWhile_cons] at ha
    by_cases hp : p x = true
    · rw [if_pos hp] at ha
      rcases List.mem_cons.mp ha with h | h
      · simp [h]
      · exact List.mem_cons_of_mem x (ih a h)
    · rw [if_neg hp] at ha
      simp at ha

/-! ### fmtEntry parses back -/

theorem parseLine_fmtEntry (k : Str) (v : List Str)
    (hk : ' ' ∉ k) (hv : ¬v = []) (hvc : ∀ p ∈ v, '/' ∉ p) :
    parseLine (fmtEntry (k, v)) = some (k, v) := by
  have hsp : ' ' ∈ fmtEntry (k, v) := by
    rw [fmtEntry]
    exact List.mem_append.mpr (Or.inr (by simp))
  rw [parseLine, if_pos hsp]
  have hkall : ∀ a ∈ k, (fun a => decide ¬a = ' ') a = true := by
    intro a ha
    simp only [decide_eq_true_eq]
    exact fun hc => hk (hc ▸ ha)
  have htk : (fmtEntry (k, v)).takeWhile (fun a => ¬a = ' ') = k := by
    rw [fmtEntry]
    exact takeWhile_append_of_all _ k _ ' ' hkall (by simp)
  have hshape : fmtEntry (k, v) = (k ++ ' ' :: '/' :: joinSep '/' v) ++ ['/'] := by
    rw [fmtEntry]
    simp
  have hdrop : (fmtEntry (k, v)).dropLast.drop (k.length + 2) = joinSep '/' v := by
    rw [hshape, List.dropLast_concat]
    have hlen : k.length + 2 = (k ++ [' ', '/']).length := by
      simp
    have hre : k ++ ' ' :: '/' :: joinSep '/' v = (k ++ [' ', '/']) ++ joinSep '/' v := by
      simp
    rw [hre, hlen, List.drop_left]
  dsimp only
  rw [htk, hdrop, splitOnChar_joinSep '/' v hv hvc]

/-- `fmtEntry` never collides with a marker line: after the entry's
key (which holds no space) the line continues `" /"`, while both marker
lines continue `" o"` after `";;"`. -/
theorem fmtEntry_ne_ariMarker (k : Str) (v : List Str) (hk : ' ' ∉ k) :
    ¬fmtEntry (k, v) = okuriAriMarker := by
  intro h
  have hkall : ∀ a ∈ k, (fun a => decide ¬a = ' ') a = true := by
    intro a ha
    simp only [decide_eq_true_eq]
    exact fun hc => hk (hc ▸ ha)
  have htk : (fmtEntry (k, v)).takeWhile (fun a => ¬a = ' ') = k := by
    rw [fmtEntry]
    exact takeWhile_append_of_all _ k _ ' ' hkall (by simp)
  have htm : okuriAriMarker.takeWhile (fun a => ¬a = ' ') = [';', ';'] := rfl
  have hk2 : k = [';', ';'] := by rw [← htk, h, htm]
  have h4 : (fmtEntry (k, v)).get? 3 = some '/' := by
    rw [fmtEntry, hk2]
    rfl
  rw [h] at h4
  exact absurd h4 (by decide)

theorem fmtEntry_ne_nasiMarker (k : Str) (v : List Str) (hk : ' ' ∉ k) :
    ¬fmtEntry (k, v) = okuriNasiMarker := by
  intro h
  have hkall : ∀ a ∈ k, (fun a => decide ¬a = ' ') a = true := by
    intro a ha
    simp only [decide_eq_true_eq]
    exact fun hc => hk (hc ▸ ha)
  have htk : (fmtEntry (k, v)).takeWhile (fun a => ¬a = ' ') = k := by
    rw [fmtEntry]
    exact takeWhile_append_of_all _ k _ ' ' hkall (by simp)
  have htm : okuriNasiMarker.takeWhile (fun a => ¬a = ' ') = [';', ';'] := rfl
  have hk2 : k = [';', ';'] := by rw [← htk, h, htm]
  have h4 : (fmtEntry (k, v)).get? 3 = some '/' := by
    rw [fmtEntry, hk2]
    rfl
  rw [h] at h4
  exact absurd h4 (by decide)

theorem not_mem_fmtEntry (a : Char) (e : Str × List Str)
    (ha : ¬a = ' ') (ha2 : ¬a = '/') (hk : a ∉ e.1) (hv : ∀ p ∈ e.2, a ∉ p) :
    a ∉ fmtEntry e := by
  rw [fmtEntry]
  intro hmem
  rcases List.mem_append.mp hmem with h | h
  · exact hk h
  · rcases List.mem_cons.mp h with h | h
    · exact ha h
    · rcases List.mem_cons.mp h with h | h
      · exact ha2 h
      · rcases List.mem_append.mp h with h | h
        · rcases mem_joinSep '/' a e.2 h with h | ⟨p, hp, hap⟩
          · exact ha2 h
          · exact hv p hp hap
        · exact ha2 (by simpa using h)

/-! ### Well-formedness of decoded tables -/

/-- Shape invariant that every entry produced by the line parser has:
the key holds no space and no newline, the candidate list is non-empty,
and no candidate holds a slash or a newline. -/
def wfEntry (e : Str × List Str) : Prop :=
  ' ' ∉ e.1 ∧ '\n' ∉ e.1 ∧ ¬e.2 = [] ∧ ∀ p ∈ e.2, '/' ∉ p ∧ '\n' ∉ p

/-- Shape invariant of a decoded table: well-formed entries, unique keys. -/
def wfTable (t : Table) : Prop :=
  (∀ e ∈ t, wfEntry e) ∧ (t.map Prod.fst).Nodup

theorem parseLine_wf (line : Str) (k : Str) (v : List Str)
    (hnl : '\n' ∉ line) (h : parseLine line = some (k, v)) : wfEntry (k, v) := by
  rw [parseLine] at h
  by_cases hsp : ' ' ∈ line
  · rw [if_pos hsp] at h
    dsimp only at h
    rw [Option.some.injEq, Prod.mk.injEq] at h
    obtain ⟨h1, h2⟩ := h
    rw [h1] at h2
    refine ⟨?_, ?_, ?_, ?_⟩
    · intro hmem
      rw [← h1] at hmem
      have := List.mem_takeWhile_imp hmem
      simp at this
    · intro hmem
      rw [← h1] at hmem
      exact hnl (mem_of_mem_takeWhile _ line '\n' hmem)
    · rw [← h2]
      exact splitOnChar_ne_nil '/' _
    · intro p hp
      rw [← h2] at hp
      refine ⟨not_mem_of_mem_splitOnChar '/' _ p hp, ?_⟩
      intro hmem
      have hin : '\n' ∈ (line.dropLast).drop (k.length + 2) :=
        mem_of_mem_mem_splitOnChar '/' '\n' _ p hp hmem
      exact hnl ((List.dropLast_sublist line).mem ((List.drop_sublist _ _).mem hin))
  · rw [if_neg hsp] at h
    exact absurd h (by simp)

theorem wfTable_mapSet (t : Table) (k : Str) (v : List Str)
    (ht : wfTable t) (he : wfEntry (k, v)) : wfTable (mapSet k v t) := by
  obtain ⟨hent, hnd⟩ := ht
  rw [mapSet]
  split
  next hany =>
    constructor
    · intro e' he'
      obtain ⟨e, hemem, hfe⟩ := List.mem_map.mp he'
      by_cases hek : e.1 = k
      · rw [← hfe, if_pos hek]
        exact he
      · rw [← hfe, if_neg hek]
        exact hent e hemem
    · have hmap : (t.map fun e => if e.1 = k then (k, v) else e).map Prod.fst
          = t.map Prod.fst := by
        rw [List.map_map]
        apply List.map_congr_left
        intro e _
        by_cases hek : e.1 = k <;> simp [hek]
      rw [hmap]
      exact hnd
  next hany =>
    constructor
    · intro e' he'
      rcases List.mem_append.mp he' with h | h
      · exact hent e' h
      · rw [List.mem_singleton.mp h]
        exact he
    · rw [List.map_append]
      simp only [List.map_cons, List.map_nil]
      rw [List.nodup_append]
      refine ⟨hnd, List.nodup_singleton k, ?_⟩
      intro x hx hk1
      rw [List.mem_singleton.mp hk1] at hx
      obtain ⟨e, hemem, hek⟩ := List.mem_map.mp hx
      exact hany (List.any_eq_true.mpr ⟨e, hemem, by simp [hek]⟩)

theorem decodeLines_wf : ∀ (lines : List Str) (mode : Mode) (a0 a1 : Table),
    (∀ l ∈ lines, '\n' ∉ l) → wfTable a0 → wfTable a1 →
    wfTable (decodeLines lines mode a0 a1).1
      ∧ wfTable (decodeLines lines mode a0 a1).2 := by
  intro lines
  induction lines with
  | nil => exact fun mode a0 a1 _ h0 h1 => ⟨h0, h1⟩
  | cons line rest ih =>
    intro mode a0 a1 hnl h0 h1
    have hnlr : ∀ l ∈ rest, '\n' ∉ l := fun l hl => hnl l (List.mem_cons_of_mem _ hl)
    rw [decodeLines.eq_def]
    dsimp only
    by_cases hm1 : line = okuriAriMarker
    · rw [if_pos hm1]
      exact ih _ _ _ hnlr h0 h1
    · rw [if_neg hm1]
      by_cases hm2 : line = okuriNasiMarker
      · rw [if_pos hm2]
        exact ih _ _ _ hnlr h0 h1
      · rw [if_neg hm2]
        cases mode with
        | preamble => exact ih _ _ _ hnlr h0 h1
        | ari =>
          rcases hp : parseLine line with _ | ⟨k, v⟩
          · simp only [hp]
            exact ih _ _ _ hnlr h0 h1
          · simp only [hp]
            have hwfe := parseLine_wf line k v (hnl line (by simp)) hp
            exact ih _ _ _ hnlr (wfTable_mapSet a0 k v h0 hwfe) h1
        | nasi =>
          rcases hp : parseLine line with _ | ⟨k, v⟩
          · simp only [hp]
            exact ih _ _ _ hnlr h0 h1
          · simp only [hp]
            have hwfe := parseLine_wf line k v (hnl line (by simp)) hp
            exact ih _ _ _ hnlr h0 (wfTable_mapSet a1 k v h1 hwfe)

/-- Both tables produced by the line parser are well-formed. -/
theorem decode_wf (text : Str) :
    wfTable (decode text).1 ∧ wfTable (decode text).2 := by
  rw [decode]
  refine decodeLines_wf _ .preamble [] [] ?_ ?_ ?_
  · exact fun l hl => not_mem_of_mem_splitOnChar '\n' text l hl
  · exact ⟨fun e he => absurd he (List.not_mem_nil e), List.nodup_nil⟩
  · exact ⟨fun e he => absurd he (List.not_mem_nil e), List.nodup_nil⟩

theorem mapSet_append_of_absent (k : Str) (v : List Str) (m : Table)
    (h : ∀ e ∈ m, ¬e.1 = k) : mapSet k v m = m ++ [(k, v)] := by
  rw [mapSet, if_neg]
  simp only [List.any_eq_true, decide_eq_true_eq, not_exists, not_and]
  exact h

theorem foldl_mapSet_of_nodup : ∀ (ts : Table) (a0 : Table),
    (ts.map Prod.fst).Nodup → (∀ e ∈ ts, ∀ e' ∈ a0, ¬e'.1 = e.1) →
    ts.foldl (fun m e => mapSet e.1 e.2 m) a0 = a0 ++ ts := by
  intro ts
  induction ts with
  | nil => intro a0 _ _; simp
  | cons e ts ih =>
    intro a0 hnd hdisj
    rw [List.map_cons, List.nodup_cons] at hnd
    obtain ⟨hnotin, hnd'⟩ := hnd
    rw [List.foldl_cons,
      mapSet_append_of_absent e.1 e.2 a0 (fun e' he' => hdisj e (by simp) e' he'),
      ih (a0 ++ [e]) hnd' ?_]
    · simp
    · intro e'' he'' e' he'
      rcases List.mem_append.mp he' with h | h
      · exact hdisj e'' (List.mem_cons_of_mem e he'') e' h
      · rw [List.mem_singleton.mp h]
        intro hk
        exact hnotin (hk ▸ List.mem_map_of_mem Prod.fst he'')

theorem decodeLines_entries_ari : ∀ (ts : Table) (rest : List Str) (a0 a1 : Table),
    (∀ e ∈ ts, wfEntry e) →
    decodeLines (ts.map fmtEntry ++ rest) .ari a0 a1
      = decodeLines rest .ari (ts.foldl (fun m e => mapSet e.1 e.2 m) a0) a1 := by
  intro ts
  induction ts with
  | nil => intro rest a0 a1 _; simp
  | cons e ts ih =>
    intro rest a0 a1 hwf
    obtain ⟨k, v⟩ := e
    obtain ⟨hk, hknl, hv, hvc⟩ := hwf (k, v) (by simp)
    rw [List.map_cons, List.cons_append, decodeLines.eq_def]
    dsimp only
    rw [if_neg (fmtEntry_ne_ariMarker k v hk),
      if_neg (fmtEntry_ne_nasiMarker k v hk)]
    have hp : parseLine (fmtEntry (k, v)) = some (k, v) :=
      parseLine_fmtEntry k v hk hv (fun p hp => (hvc p hp).1)
    simp only [hp]
    rw [ih rest _ a1 (fun e' he' => hwf e' (List.mem_cons_of_mem (k, v) he')),
      List.foldl_cons]

theorem decodeLines_entries_nasi : ∀ (ts : Table) (rest : List Str) (a0 a1 : Table),
    (∀ e ∈ ts, wfEntry e) →
    decodeLines (ts.map fmtEntry ++ rest) .nasi a0 a1
      = decodeLines rest .nasi a0 (ts.foldl (fun m e => mapSet e.1 e.2 m) a1) := by
  intro ts
  induction ts with
  | nil => intro rest a0 a1 _; simp
  | cons e ts ih =>
    intro rest a0 a1 hwf
    obtain ⟨k, v⟩ := e
    obtain ⟨hk, hknl, hv, hvc⟩ := hwf (k, v) (by simp)
    rw [List.map_cons, List.cons_append, decodeLines.eq_def]
    dsimp only
    rw [if_neg (fmtEntry_ne_ariMarker k v hk),
      if_neg (fmtEntry_ne_nasiMarker k v hk)]
    have hp : parseLine (fmtEntry (k, v)) = some (k, v) :=
      parseLine_fmtEntry k v hk hv (fun p hp => (hvc p hp).1)
    simp only [hp]
    rw [ih rest a0 _ (fun e' he' => hwf e' (List.mem_cons_of_mem (k, v) he')),
      List.foldl_cons]

/-! ### C4: the serialization format -/

instance sortKeyAscTotal : IsTotal (Str × List Str) (fun a b => a.1 ≤ b.1) :=
  ⟨fun a b => le_total a.1 b.1⟩

instance sortKeyAscTrans : IsTrans (Str × List Str) (fun a b => a.1 ≤ b.1) :=
  ⟨fun _ _ _ h1 h2 => le_trans h1 h2⟩

instance sortKeyDescTotal : IsTotal (Str × List Str) (fun a b => b.1 ≤ a.1) :=
  ⟨fun a b => le_total b.1 a.1⟩

instance sortKeyDescTrans : IsTrans (Str × List Str) (fun a b => b.1 ≤ a.1) :=
  ⟨fun _ _ _ h1 h2 => le_trans h2 h1⟩

/-- C4: the serializer emits the okuri-ari marker line, all okuri-ari
entries sorted by key in descending lexicographic order, the okuri-nasi
marker line, then all okuri-nasi entries sorted ascending, newline-joined
with a trailing empty line, each entry line being
`KEY ++ " /" ++ CAND1/CAND2/... ++ "/"`. -/
theorem writeFile_encode_format (ari nasi : Table) :
    ∃ ariL nasiL : Table,
      encode ari nasi
        = joinSep '\n' ([okuriAriMarker] ++ ariL.map fmtEntry
            ++ [okuriNasiMarker] ++ nasiL.map fmtEntry ++ [[]])
      ∧ ariL.Perm ari
      ∧ nasiL.Perm nasi
      ∧ ariL.Pairwise (fun a b => b.1 ≤ a.1)
      ∧ nasiL.Pairwise (fun a b => a.1 ≤ b.1)
      ∧ ∀ e : Str × List Str,
          fmtEntry e = e.1 ++ ' ' :: '/' :: (joinSep '/' e.2 ++ ['/']) :=
  ⟨sortTableDesc ari, sortTableAsc nasi, rfl, List.perm_insertionSort _ ari,
    List.perm_insertionSort _ nasi, List.sorted_insertionSort _ ari,
    List.sorted_insertionSort _ nasi, fun _ => rfl⟩

/-! ### C1: the Codec round trip -/

theorem splitOnChar_encode (ari nasi : Table)
    (hari : ∀ e ∈ ari, wfEntry e) (hnasi : ∀ e ∈ nasi, wfEntry e) :
    splitOnChar '\n' (encode ari nasi)
      = [okuriAriMarker] ++ (sortTableDesc ari).map fmtEntry
        ++ [okuriNasiMarker] ++ (sortTableAsc nasi).map fmtEntry ++ [[]] := by
  rw [encode]
  apply splitOnChar_joinSep
  · simp
  · intro p hp
    have hwffmt : ∀ (t : Table), (∀ e ∈ t, wfEntry e) →
        ∀ e ∈ t, '\n' ∉ fmtEntry e := by
      intro t ht e he
      obtain ⟨hsp, hnl, _, hvc⟩ := ht e he
      exact not_mem_fmtEntry '\n' e (by decide) (by decide) hnl
        (fun p hp => (hvc p hp).2)
    have hsa : ∀ e ∈ sortTableDesc ari, wfEntry e :=
      fun e he => hari e ((List.perm_insertionSort _ ari).mem_iff.mp he)
    have hsn : ∀ e ∈ sortTableAsc nasi, wfEntry e :=
      fun e he => hnasi e ((List.perm_insertionSort _ nasi).mem_iff.mp he)
    simp only [List.mem_append, List.mem_singleton] at hp
    rcases hp with ((((hp | hp) | hp) | hp) | hp)
    · rw [hp]
      decide
    · obtain ⟨e, he, hfe⟩ := List.mem_map.mp hp
      rw [← hfe]
      exact hwffmt _ hsa e he
    · rw [hp]
      decide
    · obtain ⟨e, he, hfe⟩ := List.mem_map.mp hp
      rw [← hfe]
      exact hwffmt _ hsn e he
    · rw [hp]
      simp

theorem decode_encode_of_wf (ari nasi : Table)
    (h0 : wfTable ari) (h1 : wfTable nasi) :
    decode (encode ari nasi) = (sortTableDesc ari, sortTableAsc nasi) := by
  have hsa : ∀ e ∈ sortTableDesc ari, wfEntry e :=
    fun e he => h0.1 e ((List.perm_insertionSort _ ari).mem_iff.mp he)
  have hsn : ∀ e ∈ sortTableAsc nasi, wfEntry e :=
    fun e he => h1.1 e ((List.perm_insertionSort _ nasi).mem_iff.mp he)
  have hnda : ((sortTableDesc ari).map Prod.fst).Nodup :=
    (((List.perm_insertionSort _ ari).map Prod.fst).nodup_iff).mpr h0.2
  have hndn : ((sortTableAsc nasi).map Prod.fst).Nodup :=
    (((List.perm_insertionSort _ nasi).map Prod.fst).nodup_iff).mpr h1.2
  rw [decode, splitOnChar_encode ari nasi h0.1 h1.1]
  have hl : [okuriAriMarker] ++ (sortTableDesc ari).map fmtEntry
      ++ [okuriNasiMarker] ++ (sortTableAsc nasi).map fmtEntry ++ [[]]
      = okuriAriMarker :: ((sortTableDesc ari).map fmtEntry
          ++ (okuriNasiMarker :: ((sortTableAsc nasi).map fmtEntry ++ [([] : Str)]))) := by
    simp
  rw [hl, decodeLines.eq_def]
  dsimp only
  rw [if_pos rfl, decodeLines_entries_ari _ _ [] [] hsa,
    foldl_mapSet_of_nodup _ [] hnda (by simp), List.nil_append,
    decodeLines.eq_def]
  dsimp only
  rw [if_neg (by decide), if_pos rfl, decodeLines_entries_nasi _ _ _ [] hsn,
    foldl_mapSet_of_nodup _ [] hndn (by simp), List.nil_append,
    decodeLines.eq_def]
  dsimp only
  rw [if_neg (by decide), if_neg (by decide)]
  simp only [show parseLine [] = none from rfl]
  rw [decodeLines]

theorem mem_of_mapGet_eq_some (k : Str) (v : β) :
    ∀ (t : AList β), mapGet k t = some v → (k, v) ∈ t := by
  intro t
  induction t with
  | nil => intro h; simp [mapGet] at h
  | cons e es ih =>
    obtain ⟨e1, e2⟩ := e
    intro h
    rw [mapGet] at h
    by_cases he : (e1, e2).1 = k
    · rw [if_pos he] at h
      injection h with h
      simp only at he h
      rw [he, h]
      exact List.mem_cons_self _ _
    · rw [if_neg he] at h
      exact List.mem_cons_of_mem _ (ih h)

theorem mapGet_eq_none_iff (k : Str) :
    ∀ (t : AList β), mapGet k t = none ↔ k ∉ t.map Prod.fst := by
  intro t
  induction t with
  | nil =>
    constructor
    · intro _ hmem
      simp at hmem
    · intro _
      rfl
  | cons e es ih =>
    rw [mapGet]
    by_cases he : e.1 = k
    · rw [if_pos he]
      constructor
      · intro h
        exact absurd h (Option.some_ne_none e.2)
      · intro h
        exfalso
        apply h
        rw [List.map_cons]
        exact List.mem_cons.mpr (Or.inl he.symm)
    · rw [if_neg he]
      simp only [List.map_cons, List.mem_cons, ih]
      constructor
      · rintro h (h1 | h2)
        · exact he h1.symm
        · exact h h2
      · intro h h2
        exact h (Or.inr h2)

theorem mapGet_eq_some_of_mem_nodup (k : Str) (v : β) :
    ∀ (t : AList β), (t.map Prod.fst).Nodup → (k, v) ∈ t → mapGet k t = some v := by
  intro t
  induction t with
  | nil => intro _ h; simp at h
  | cons e es ih =>
    intro hnd hm
    rw [List.map_cons, List.nodup_cons] at hnd
    rw [mapGet]
    rcases List.mem_cons.mp hm with h | h
    · rw [← h]
      simp
    · by_cases he : e.1 = k
      · exfalso
        apply hnd.1
        rw [he]
        exact List.mem_map_of_mem Prod.fst h
      · rw [if_neg he]
        exact ih hnd.2 h

theorem mapGet_eq_of_perm (t1 t2 : AList β) (hp : t1.Perm t2)
    (hnd : (t2.map Prod.fst).Nodup) (k : Str) : mapGet k t1 = mapGet k t2 := by
  rcases h2 : mapGet k t2 with _ | v
  · rw [mapGet_eq_none_iff]
    rw [mapGet_eq_none_iff] at h2
    intro hmem
    exact h2 (((hp.map Prod.fst).mem_iff).mp hmem)
  · have hmem : (k, v) ∈ t1 := hp.mem_iff.mpr (mem_of_mapGet_eq_some k v t2 h2)
    exact mapGet_eq_some_of_mem_nodup k v t1
      (((hp.map Prod.fst).nodup_iff).mpr hnd) hmem

/-- C1: for tables obtained by decoding some dictionary text, decoding
the text produced by encoding them yields the same tables again — the
same entries as JS `Map` equality sees them: a permutation of the entry
list (encode re-sorts the two tables) with pointwise-equal lookups. -/
theorem decode_encode_decode_roundtrip (text : Str) :
    ((decode (encode (decode text).1 (decode text).2)).1.Perm (decode text).1)
    ∧ ((decode (encode (decode text).1 (decode text).2)).2.Perm (decode text).2)
    ∧ (∀ k, mapGet k (decode (encode (decode text).1 (decode text).2)).1
        = mapGet k (decode text).1)
    ∧ (∀ k, mapGet k (decode (encode (decode text).1 (decode text).2)).2
        = mapGet k (decode text).2) := by
  obtain ⟨h0, h1⟩ := decode_wf text
  rw [decode_encode_of_wf _ _ h0 h1]
  have hpa : (sortTableDesc (decode text).1).Perm (decode text).1 :=
    List.perm_insertionSort _ _
  have hpn : (sortTableAsc (decode text).2).Perm (decode text).2 :=
    List.perm_insertionSort _ _
  exact ⟨hpa, hpn, fun k => mapGet_eq_of_perm _ _ hpa h0.2 k,
    fun k => mapGet_eq_of_perm _ _ hpn h1.2 k⟩

end Skk
